import Mathlib

/-!
Verification of the project-tracking core (ledger, approval engine, RBAC).

Shallow embedding of `src/core/ledger.js`, `src/core/approval-engine.js` and
`src/core/rbac.js`.  JavaScript numbers that matter here are 32-bit wrapped
integers (the rolling hash), modelled as `Int` with an explicit `toInt32`.
JavaScript exceptions are modelled with `Option`/`Except` (`none`/`error`
meaning that the operation throws).  Nondeterministic identifier and timestamp
generation (`Date.now()`, `Math.random()`, `new Date().toISOString()`) is
modelled by passing the generated values as explicit arguments.
-/

/-! ## JSON values and `JSON.stringify`

`Ledger.calculateHash` serialises the canonical entry fields through
`JSON.stringify`.  `JsonV` models the JSON-compatible values involved
(numbers restricted to exact integers; floating point is not used by any
claim).  `stringify` mirrors `JSON.stringify`: key order is insertion order,
strings are quoted with the standard escapes, and `undefined`-valued keys are
omitted by the caller (`calculateHash` builds the key list accordingly).
-/

inductive JsonV where
  | null : JsonV
  | b : Bool → JsonV
  | i : Int → JsonV
  | s : String → JsonV
  | arr : List JsonV → JsonV
  | obj : List (String × JsonV) → JsonV


def hexDigitCh (n : Nat) : Char :=
  if n < 10 then Char.ofNat (48 + n) else Char.ofNat (87 + n)

/-- One character of a JSON string literal, as escaped by `JSON.stringify`. -/
def jsonEscChar (c : Char) : String :=
  if c = Char.ofNat 34 then "\\\""
  else if c = Char.ofNat 92 then "\\\\"
  else if c = Char.ofNat 8 then "\\b"
  else if c = Char.ofNat 9 then "\\t"
  else if c = Char.ofNat 10 then "\\n"
  else if c = Char.ofNat 12 then "\\f"
  else if c = Char.ofNat 13 then "\\r"
  else if c.toNat < 32 then
    "\\u00" ++ String.mk [hexDigitCh (c.toNat / 16), hexDigitCh (c.toNat % 16)]
  else String.mk [c]

def jsonQuote (s : String) : String :=
  "\"" ++ String.join (s.data.map jsonEscChar) ++ "\""

mutual

def stringify : JsonV → String
  | JsonV.null => "null"
  | JsonV.b true => "true"
  | JsonV.b false => "false"
  | JsonV.i n => toString n
  | JsonV.s s => jsonQuote s
  | JsonV.arr xs => "[" ++ String.intercalate "," (stringifyList xs) ++ "]"
  | JsonV.obj kvs => "\x7b" ++ String.intercalate "," (stringifyPairs kvs) ++ "\x7d"

def stringifyList : List JsonV → List String
  | [] => []
  | x :: xs => stringify x :: stringifyList xs

def stringifyPairs : List (String × JsonV) → List String
  | [] => []
  | (k, v) :: xs => (jsonQuote k ++ ":" ++ stringify v) :: stringifyPairs xs

end

/-! ## The rolling hash of `Ledger.calculateHash`

`hash = ((hash << 5) - hash) + charCode; hash = hash & hash` iterated over the
UTF-16 code units of the serialised string, starting from 0.  `<<` and `&`
truncate to a signed 32-bit integer; the intermediate sum is exact (well below
2^53).  `toString(16)` prints the signed value in lowercase hex, with a
leading minus sign when negative. -/

/-- JavaScript `ToInt32`: reduce mod 2^32 into the range [-2^31, 2^31). -/
def toInt32 (x : Int) : Int :=
  let m := x % 4294967296
  if m < 2147483648 then m else m - 4294967296

def hashStep (h : Int) (c : Nat) : Int :=
  toInt32 (toInt32 (h * 32) - h + c)

/-- Left fold of `hashStep`, written with an accumulator that is forced to a
constructor at every step so that concrete hashes reduce without building a
thunk tower.  `hashString_foldl` below states the plain `foldl` form. -/
def hashRun : Int → List Nat → Int
  | h, [] => h
  | h, c :: cs =>
    match hashStep h c with
    | Int.ofNat m => hashRun (Int.ofNat m) cs
    | Int.negSucc m => hashRun (Int.negSucc m) cs

def hashString (codes : List Nat) : Int :=
  hashRun 0 codes

/-- The UTF-16 code units of a string (what `charCodeAt` iterates over). -/
def utf16Codes (s : String) : List Nat :=
  List.flatten (s.data.map (fun c =>
    if c.toNat < 65536 then [c.toNat]
    else [55296 + (c.toNat - 65536) / 1024, 56320 + (c.toNat - 65536) % 1024]))

/-- JavaScript `Number.prototype.toString(16)` on a 32-bit integer value:
lowercase hex digits, a leading minus sign for negative values, `"0"` for 0.
`Nat.toDigits 16` produces exactly this digit string for the magnitude. -/
def jsToHex (i : Int) : String :=
  if i < 0 then "-" ++ String.mk (Nat.toDigits 16 i.natAbs)
  else String.mk (Nat.toDigits 16 i.toNat)

/-! ## Ledger entries, `record` and `verify` (`src/core/ledger.js`) -/

structure LedgerEntry where
  id : String
  timestamp : String
  action : Option String
  projectId : Option String
  userId : Option String
  details : Option JsonV
  previousHash : String
  hash : Option String


/-- A key of the canonical object that is dropped when its value is
`undefined` (exactly what `JSON.stringify` does to such keys). -/
def optField (name : String) (v : Option JsonV) : List (String × JsonV) :=
  match v with
  | none => []
  | some j => [(name, j)]

/-- Model of `Ledger.calculateHash`: serialise the seven canonical fields (the stored
`hash` field is never read) and run the rolling hash over the result. -/
def calculateHash (e : LedgerEntry) : String :=
  jsToHex (hashString (utf16Codes (stringify (JsonV.obj (
    [("id", JsonV.s e.id), ("timestamp", JsonV.s e.timestamp)]
    ++ optField "action" (e.action.map JsonV.s)
    ++ optField "projectId" (e.projectId.map JsonV.s)
    ++ optField "userId" (e.userId.map JsonV.s)
    ++ optField "details" e.details
    ++ [("previousHash", JsonV.s e.previousHash)])))))

structure Ledger where
  entries : List LedgerEntry
  useHashing : Bool


/-- Model of `Ledger.getLastHash`: `'0'` on an empty ledger, otherwise the last
entry's stored hash, with JavaScript's `|| '0'` catching a missing or empty
hash. -/
def getLastHash (entries : List LedgerEntry) : String :=
  match entries.getLast? with
  | none => "0"
  | some e =>
    match e.hash with
    | none => "0"
    | some h => if h = "" then "0" else h

/-- Caller-supplied part of a `record()` argument (the canonical content
fields; extra ad-hoc fields a caller might add are stored but never hashed
nor verified, so they are not modelled). -/
structure RecordInput where
  action : Option String
  projectId : Option String
  userId : Option String
  details : Option JsonV


/-- The entry `Ledger.record` assembles before hashing: generated id and
timestamp (passed in explicitly), the caller's content fields, and
`previousHash` linked to the current last entry. -/
def mkEntry (es : List LedgerEntry) (idv tsv : String) (inp : RecordInput) :
    LedgerEntry :=
  { id := idv, timestamp := tsv, action := inp.action, projectId := inp.projectId,
    userId := inp.userId, details := inp.details,
    previousHash := getLastHash es, hash := none }

/-- Model of `Ledger.record`: build the entry, hash it when hashing is enabled, and
append. -/
def recordOp (L : Ledger) (idv tsv : String) (inp : RecordInput) : Ledger :=
  let base := mkEntry L.entries idv tsv inp
  let e := if L.useHashing then { base with hash := some (calculateHash base) } else base
  { L with entries := L.entries ++ [e] }

structure VerifyResult where
  valid : Bool
  message : String
  entry : Option LedgerEntry


def invalidHashMsg (i : Nat) (e : LedgerEntry) : String :=
  "Entry " ++ toString i ++ " (" ++ e.id ++ ") has invalid hash"

def brokenChainMsg (i : Nat) (e : LedgerEntry) : String :=
  "Entry " ++ toString i ++ " (" ++ e.id ++ ") has broken chain"

/-- The loop of `Ledger.verify`: hash check first, then (for `i > 0`) the
link to the previous entry's stored hash. -/
def verifyAux : Option LedgerEntry → Nat → List LedgerEntry → VerifyResult
  | _, _, [] => { valid := true, message := "Ledger integrity verified", entry := none }
  | prev, i, e :: rest =>
    if e.hash ≠ some (calculateHash e) then
      { valid := false, message := invalidHashMsg i e, entry := some e }
    else
      match prev with
      | none => verifyAux (some e) (i + 1) rest
      | some p =>
        if some e.previousHash ≠ p.hash then
          { valid := false, message := brokenChainMsg i e, entry := some e }
        else verifyAux (some e) (i + 1) rest

/-- Model of `Ledger.verify`. -/
def ledgerVerify (L : Ledger) : VerifyResult :=
  if L.useHashing = false then
    { valid := true, message := "Hashing disabled", entry := none }
  else verifyAux none 0 L.entries

structure RecordStep where
  idv : String
  tsv : String
  inp : RecordInput


def emptyLedger : Ledger := { entries := [], useHashing := true }

/-- A sequence of `record()` calls on an initially empty ledger with hashing
enabled. -/
def runRecords (steps : List RecordStep) : Ledger :=
  steps.foldl (fun L s => recordOp L s.idv s.tsv s.inp) emptyLedger

/-! ## Spec-side checkers for `verify` (refinement vocabulary for C1/C2)

`ChainInv` is the chain invariant as the spec states it; `entryOkAt` is the
per-index check the spec describes `verify` as performing (content hash
matches, and for `i > 0` the link to the previous entry holds; the `prev`
argument generalises over the already-consumed prefix so that the loop lemmas
go through by induction). -/

def ChainInv (es : List LedgerEntry) : Prop :=
  (∀ e, es.head? = some e → e.previousHash = "0")
  ∧ (∀ i e e2, es[i]? = some e → es[i + 1]? = some e2 →
      e.hash = some e2.previousHash)
  ∧ (∀ e ∈ es, e.hash = some (calculateHash e))

def entryOkAt (prev : Option LedgerEntry) (es : List LedgerEntry) (j : Nat) : Bool :=
  match es[j]? with
  | none => true
  | some e =>
    (if e.hash = some (calculateHash e) then true else false) &&
    (match j with
     | 0 =>
       match prev with
       | none => true
       | some p => if p.hash = some e.previousHash then true else false
     | k + 1 =>
       match es[k]? with
       | some p => if p.hash = some e.previousHash then true else false
       | none => true)

/-- The message `verify` produces at the first failing index: the hash check
runs first, so a broken-chain message implies the hash check passed. -/
def entryFailMsg (i : Nat) (e : LedgerEntry) : String :=
  if e.hash = some (calculateHash e) then brokenChainMsg i e else invalidHashMsg i e

/-! ### Concrete tamper scenario for the C2 counterexample

The rolling hash is `h := 31*h + c (mod 2^32)` over the serialised string, so
two characters at the same positions with equal `31*c1 + c2` collide:
`'A'*31 + 'a' = 'B'*31 + 'B' = 2112`.  Mutating a recorded entry's `userId`
from `"Aa"` to `"BB"` therefore leaves its content hash unchanged and
`verify()` still reports the chain as valid. -/

def c2Step : RecordStep :=
  { idv := "E1", tsv := "T1",
    inp := { action := some "A", projectId := some "P", userId := some "Aa", details := none } }

def c2Base : LedgerEntry :=
  { id := "E1", timestamp := "T1", action := some "A", projectId := some "P",
    userId := some "Aa", details := none, previousHash := "0", hash := none }

def c2Entry : LedgerEntry := { c2Base with hash := some (calculateHash c2Base) }

def c2Tampered : LedgerEntry := { c2Entry with userId := some "BB" }

/-! ## Approval engine (`src/core/approval-engine.js`)

State is the `approvals` array.  `find` takes the first request whose id
matches and the engine mutates it in place; `updateFirst` models exactly
that.  Generated ids (`'APR-' + Date.now()`) and timestamps are passed in
explicitly. -/

structure ApprovalAction where
  userId : String
  action : String
  comments : String
  timestamp : String
deriving DecidableEq, Repr

structure Approval where
  id : String
  requiredApprovers : List String
  status : String
  approvals : List ApprovalAction
  createdAt : String
  rejectedBy : Option String
  rejectionReason : Option String
deriving DecidableEq, Repr

/-- Rewrite the first element satisfying `p` (the in-place mutation of the
request `Array.prototype.find` returned). -/
def updateFirst {α : Type} (p : α → Bool) (f : α → α) : List α → List α
  | [] => []
  | a :: rest => if p a then f a :: rest else a :: updateFirst p f rest

/-- Model of `ApprovalEngine.requestApproval`: fresh request, status `'pending'`,
empty log (the spread `...request` cannot override those fields since they
are written after it). -/
def requestApprovalOp (st : List Approval) (idv tsv : String)
    (required : List String) : List Approval :=
  st ++ [{ id := idv, requiredApprovers := required, status := "pending",
           approvals := [], createdAt := tsv, rejectedBy := none,
           rejectionReason := none }]

/-- Model of `ApprovalEngine.isFullyApproved`: every required approver appears among
the log's approver identifiers (set membership, not count). -/
def isFullyApproved (a : Approval) : Bool :=
  a.requiredApprovers.all (fun r => (a.approvals.map (fun x => x.userId)).contains r)

/-- Model of `ApprovalEngine.approve`: throws `'Approval not found'` when no request
matches; otherwise appends the log entry and, if the quorum is now met,
sets status to `'approved'` — with no guard on the current status. -/
def approveOp (st : List Approval) (approvalId userId comments tsv : String) :
    Except String (List Approval) :=
  if st.any (fun a => a.id == approvalId) then
    Except.ok (updateFirst (fun a => a.id == approvalId)
      (fun a =>
        let a1 := { a with approvals := a.approvals ++
          [{ userId := userId, action := "approved", comments := comments,
             timestamp := tsv }] }
        if isFullyApproved a1 then { a1 with status := "approved" } else a1) st)
  else Except.error "Approval not found"

/-- Model of `ApprovalEngine.reject`: throws `'Approval not found'` when no request
matches; otherwise unconditionally sets status `'rejected'` and records the
rejecting user and reason. -/
def rejectOp (st : List Approval) (approvalId userId reason : String) :
    Except String (List Approval) :=
  if st.any (fun a => a.id == approvalId) then
    Except.ok (updateFirst (fun a => a.id == approvalId)
      (fun a =>
        { a with
            status := "rejected", rejectedBy := some userId,
            rejectionReason := some reason }) st)
  else Except.error "Approval not found"

/-- One `approve` call, with a throw leaving the state unchanged (the
exception propagates before any mutation). -/
def approveStep (approvalId userId comments tsv : String)
    (st : List Approval) : List Approval :=
  match approveOp st approvalId userId comments tsv with
  | Except.ok st2 => st2
  | Except.error _ => st

/-- Iterated model: `n` successive `approve` calls by the same user. -/
def approveTimes (approvalId userId comments tsv : String) :
    Nat → List Approval → List Approval
  | 0, st => st
  | n + 1, st =>
    approveStep approvalId userId comments tsv
      (approveTimes approvalId userId comments tsv n st)

/-- Status of the first request with the given id, if any. -/
def statusOf (st : List Approval) (approvalId : String) : Option String :=
  (st.find? (fun a => a.id == approvalId)).map (fun a => a.status)

/-! ## RBAC (`src/core/rbac.js`)

A role's spec at a permission level is polymorphic: the string `'*'`
(AllResources), an array of resource-type names (ResourceList), or a plain
object mapping a resource type to `'*'` or an array of instance ids
(ResourceMap).  `can` is modelled as returning `Option Bool`: `none` means
the JavaScript code throws.  It does throw: for a plain-object spec,
`perms.includes('*')` is a call to an undefined property
(`TypeError: perms.includes is not a function`), reached because
`perms === '*'` is false for an object.  The later
`typeof perms === 'object'` branch of the source is therefore unreachable
for ResourceMap specs; for arrays it can be entered via numeric-string or
method-name keys but never returns true when the elements are resource-type
strings, so the array case below is exactly the wildcard/membership test. -/

inductive MapEntry where
  | all : MapEntry
  | ids : List String → MapEntry
deriving DecidableEq, Repr

inductive PermSpec where
  | star : PermSpec
  | list : List String → PermSpec
  | map : List (String × MapEntry) → PermSpec
deriving DecidableEq, Repr

/-- A role's own spec-valued keys (`role[permission]`), as a JavaScript
object: unique keys, first-match lookup.  The bookkeeping keys `id` and
`createdAt` that `defineRole` adds hold strings, which `can` skips over
without granting, so they are not modelled. -/
structure Role where
  perms : List (String × PermSpec)
deriving DecidableEq, Repr

structure RbacUser where
  id : String
  roles : List String
deriving DecidableEq, Repr

structure RbacState where
  roles : List (String × Role)
  users : List (String × RbacUser)
deriving DecidableEq, Repr

/-- JavaScript property lookup on an object modelled as an association
list (objects have unique keys; lookup takes the first match). -/
def jsGet {α : Type} (m : List (String × α)) (k : String) : Option α :=
  match m with
  | [] => none
  | (k1, v1) :: rest => if k1 == k then some v1 else jsGet rest k

/-- JavaScript property assignment: update in place if the key exists,
append otherwise. -/
def jsSet {α : Type} (m : List (String × α)) (k : String) (v : α) : List (String × α) :=
  match m with
  | [] => [(k, v)]
  | (k1, v1) :: rest => if k1 == k then (k1, v) :: rest else (k1, v1) :: jsSet rest k v

/-- The role loop of `RBAC.can`.  Per role: missing role or missing spec at
the level ⇒ continue; `'*'` ⇒ true; an array ⇒ true when it contains `'*'`
or the resource type, else continue; a plain object ⇒ the wildcard test
`perms.includes('*')` throws (`none`). -/
def canLoop (st : RbacState) (permission resource : String)
    (resourceId : Option String) : List String → Option Bool
  | [] => some false
  | roleId :: rest =>
    match jsGet st.roles roleId with
    | none => canLoop st permission resource resourceId rest
    | some role =>
      match jsGet role.perms permission with
      | none => canLoop st permission resource resourceId rest
      | some PermSpec.star => some true
      | some (PermSpec.list l) =>
        if l.contains "*" then some true
        else if l.contains resource then some true
        else canLoop st permission resource resourceId rest
      | some (PermSpec.map _) => none

/-- Model of `RBAC.can`: unknown user ⇒ false; a user holding `'superuser'` or
`'admin'` passes unconditionally; otherwise iterate the user's roles. -/
def rbacCan (st : RbacState) (userId permission resource : String)
    (resourceId : Option String) : Option Bool :=
  match jsGet st.users userId with
  | none => some false
  | some user =>
    if user.roles.contains "superuser" || user.roles.contains "admin" then some true
    else canLoop st permission resource resourceId user.roles

/-- The loop of `RBAC.maskFields` over the sensitive field names; a throw
inside `can` propagates (`none`). -/
def maskLoop (st : RbacState) (userId : String) :
    List String → List (String × JsonV) → Option (List (String × JsonV))
  | [], acc => some acc
  | f :: rest, acc =>
    match rbacCan st userId "view" f none with
    | none => none
    | some true => maskLoop st userId rest acc
    | some false => maskLoop st userId rest (jsSet acc f (JsonV.s "***RESTRICTED***"))

/-- Model of `RBAC.maskFields`: shallow-copy the record, then overwrite each listed
field the user cannot view with the redaction sentinel. -/
def maskFields (st : RbacState) (userId : String) (data : List (String × JsonV))
    (sensitiveFields : List String) : Option (List (String × JsonV)) :=
  maskLoop st userId sensitiveFields data

/-! ### Spec-side grant predicates (the claims' case analysis, for
comparison with `rbacCan`) -/

/-- One spec grants access, as claim C6 words it: AllResources grants every
resource type; a ResourceList grants exactly the types it contains; a
ResourceMap grants when its entry is AllInstances or an InstanceIdList
containing the given instance id. -/
def specGrantsAt (spec : PermSpec) (resource : String)
    (resourceId : Option String) : Bool :=
  match spec with
  | PermSpec.star => true
  | PermSpec.list l => l.contains resource
  | PermSpec.map m =>
    match jsGet m resource with
    | some MapEntry.all => true
    | some (MapEntry.ids l) =>
      match resourceId with
      | some rid => l.contains rid
      | none => false
    | none => false

/-- Claim C6's reading of `can` for a non-superuser: some held role's spec
at the level grants access under `specGrantsAt`. -/
def specCanC6 (st : RbacState) (userId permission resource : String)
    (resourceId : Option String) : Bool :=
  match jsGet st.users userId with
  | none => false
  | some user =>
    user.roles.any (fun roleId =>
      match jsGet st.roles roleId with
      | none => false
      | some role =>
        match jsGet role.perms permission with
        | none => false
        | some spec => specGrantsAt spec resource resourceId)

/-- The grant test `can` actually implements for non-map specs: `'*'`, or a
list containing `'*'` or the resource type. -/
def implGrantsAt (spec : PermSpec) (resource : String) : Bool :=
  match spec with
  | PermSpec.star => true
  | PermSpec.list l => l.contains "*" || l.contains resource
  | PermSpec.map _ => false

/-- One held role grants under `implGrantsAt`. -/
def roleGrants (st : RbacState) (permission resource roleId : String) : Bool :=
  match jsGet st.roles roleId with
  | none => false
  | some role =>
    match jsGet role.perms permission with
    | none => false
    | some spec => implGrantsAt spec resource

/-- Existence of a granting role under `implGrantsAt`. -/
def implCan (st : RbacState) (userId permission resource : String) : Bool :=
  match jsGet st.users userId with
  | none => false
  | some user => user.roles.any (roleGrants st permission resource)

/-- Whether a held role's spec at the level is a ResourceMap (the shape on
which the wildcard test throws). -/
def roleHasMapAt (st : RbacState) (permission roleId : String) : Bool :=
  match jsGet st.roles roleId with
  | none => false
  | some role =>
    match jsGet role.perms permission with
    | some (PermSpec.map _) => true
    | _ => false

/-! ### Concrete RBAC states for the counterexamples -/

/-- A role whose `view` spec is a ResourceMap granting every `project`
instance — on which `can` throws. -/
def mapRole : Role := { perms := [("view", PermSpec.map [("project", MapEntry.all)])] }

def mapState : RbacState :=
  { roles := [("r1", mapRole)],
    users := [("u1", { id := "u1", roles := ["r1"] })] }

/-- A role whose `edit` spec is the array `['*']` (a ResourceList whose only
element is the wildcard string). -/
def starListRole : Role := { perms := [("edit", PermSpec.list ["*"])] }

def starListState : RbacState :=
  { roles := [("r1", starListRole)],
    users := [("u1", { id := "u1", roles := ["r1"] })] }

/-- The C10 counterexample state: the map-spec role is iterated before the
`['*']` role, so `can` throws before the wildcard is consulted. -/
def mapThenStarState : RbacState :=
  { roles := [("m", { perms := [("view", PermSpec.map [("project", MapEntry.all)])] }),
              ("s", { perms := [("view", PermSpec.list ["*"])] })],
    users := [("u1", { id := "u1", roles := ["m", "s"] })] }

/-! ## Lemmas and claim theorems -/

/-- Unfolding: `hashRun` is the plain left fold of `hashStep` (the accumulator-forcing
`match` in its definition is the identity on `Int`). -/
lemma hashRun_foldl : ∀ (cs : List Nat) (h : Int), hashRun h cs = cs.foldl hashStep h := by
  intro cs
  induction cs with
  | nil => intro h; rfl
  | cons c rest ih =>
    intro h
    simp only [hashRun, List.foldl_cons]
    cases hv : hashStep h c with
    | ofNat m => exact ih (Int.ofNat m)
    | negSucc m => exact ih (Int.negSucc m)

lemma hashString_foldl (codes : List Nat) : hashString codes = codes.foldl hashStep 0 :=
  hashRun_foldl codes 0

/-- The loop of `can` is an existence check over the user's roles whenever no
role's spec at the level is a ResourceMap (a map would make it throw). -/
lemma canLoop_eq_any (st : RbacState) (permission resource : String)
    (resourceId : Option String) :
    ∀ l : List String, (∀ rid ∈ l, roleHasMapAt st permission rid = false) →
      canLoop st permission resource resourceId l
        = some (l.any (roleGrants st permission resource)) := by
  intro l
  induction l with
  | nil => intro _; rfl
  | cons rid rest ih =>
    intro h
    have hrid : roleHasMapAt st permission rid = false := h rid (by simp)
    have hrest : ∀ r ∈ rest, roleHasMapAt st permission r = false :=
      fun r hr => h r (by simp [hr])
    cases hrole : jsGet st.roles rid with
    | none => simp [canLoop, hrole, roleGrants, ih hrest]
    | some role =>
      cases hperm : jsGet role.perms permission with
      | none => simp [canLoop, hrole, hperm, roleGrants, ih hrest]
      | some spec =>
        cases spec with
        | star => simp [canLoop, hrole, hperm, roleGrants, implGrantsAt]
        | list ls =>
          by_cases hstar : "*" ∈ ls
          · simp [canLoop, hrole, hperm, roleGrants, implGrantsAt, hstar]
          · by_cases hres : resource ∈ ls
            · simp [canLoop, hrole, hperm, roleGrants, implGrantsAt, hstar, hres]
            · simp [canLoop, hrole, hperm, roleGrants, implGrantsAt, hstar, hres, ih hrest]
        | map m =>
          exfalso
          rw [roleHasMapAt] at hrid
          simp [hrole, hperm] at hrid

/-- C7: a user holding the `admin` or `superuser` marker role passes `can`
for every level, resource type and resource instance. -/
theorem rbac_superuser_bypass_c7 (st : RbacState)
    (userId permission resource : String) (resourceId : Option String)
    (u : RbacUser) (hu : jsGet st.users userId = some u)
    (hr : "admin" ∈ u.roles ∨ "superuser" ∈ u.roles) :
    rbacCan st userId permission resource resourceId = some true := by
  unfold rbacCan
  rw [hu]
  rcases hr with h | h <;> simp [h]

/-- C7 witness: a concrete user holding `admin` passes a concrete check. -/
theorem rbac_superuser_bypass_c7_witness :
    rbacCan { roles := [], users := [("root", { id := "root", roles := ["admin"] })] }
      "root" "edit" "budget" (some "b1") = some true :=
  rbac_superuser_bypass_c7 _ _ _ _ _ { id := "root", roles := ["admin"] }
    (by decide) (Or.inl (by decide))

/-- C5: `can` is claimed never to throw, but on a role whose spec at the
checked level is a ResourceMap it evaluates `perms.includes('*')` on a plain
object and throws a `TypeError` (`none` in the embedding); unknown users do
resolve to `false` as claimed. -/
theorem rbac_can_throws_c5 :
    rbacCan mapState "u1" "view" "project" none = none
    ∧ rbacCan mapState "nobody" "view" "project" none = some false := by
  constructor <;> decide

/-- C6 counterexample: with the spec `edit: ['*']` (a ResourceList whose
only element is `'*'`), `can(u1,'edit','budget')` returns true although the
claim's case analysis (a ResourceList grants exactly the resource types it
contains) grants nothing, and `u1` is not a superuser. -/
theorem rbac_can_c6_counterexample :
    rbacCan starListState "u1" "edit" "budget" none = some true
    ∧ specCanC6 starListState "u1" "edit" "budget" none = false
    ∧ jsGet starListState.users "u1" = some { id := "u1", roles := ["r1"] }
    ∧ (("superuser" ∈ ["r1"]) = False ∧ ("admin" ∈ ["r1"]) = False) := by
  refine ⟨by decide, by decide, by decide, by simp, by simp⟩

/-- C6 (amended): for a non-superuser user none of whose held roles has a
ResourceMap spec at the requested level (on such a spec `can` throws, see
C5), `can` returns true iff some held role's spec at that level is
AllResources, or is a ResourceList containing the resource type or the
wildcard string `'*'`. -/
theorem rbac_can_c6_amended (st : RbacState) (userId permission resource : String)
    (resourceId : Option String) (u : RbacUser)
    (hu : jsGet st.users userId = some u)
    (hsu : "superuser" ∉ u.roles) (hadm : "admin" ∉ u.roles)
    (hnomap : ∀ rid ∈ u.roles, roleHasMapAt st permission rid = false) :
    rbacCan st userId permission resource resourceId
      = some (implCan st userId permission resource) := by
  unfold rbacCan implCan
  rw [hu]
  simp [hsu, hadm, canLoop_eq_any st permission resource resourceId u.roles hnomap]

/-- C6 amended witness: a concrete non-superuser state decided through the
amended theorem. -/
theorem rbac_can_c6_amended_witness :
    rbacCan { roles := [("fin", { perms := [("edit", PermSpec.list ["budget"])] })],
              users := [("u1", { id := "u1", roles := ["fin"] })] }
      "u1" "edit" "budget" none = some true := by
  have h := rbac_can_c6_amended
    { roles := [("fin", { perms := [("edit", PermSpec.list ["budget"])] })],
      users := [("u1", { id := "u1", roles := ["fin"] })] }
    "u1" "edit" "budget" none { id := "u1", roles := ["fin"] }
    (by decide) (by decide) (by decide) (by decide)
  rw [h]
  decide

/-- The loop of `can` returns true as soon as it reaches a role whose list
spec contains `'*'`, provided no earlier role's spec at the level is a
ResourceMap (which would throw first). -/
lemma canLoop_star (st : RbacState) (permission resource : String)
    (resourceId : Option String) (roleId : String) (post : List String)
    (role : Role) (l : List String)
    (hrole : jsGet st.roles roleId = some role)
    (hspec : jsGet role.perms permission = some (PermSpec.list l))
    (hstar : "*" ∈ l) :
    ∀ pre, (∀ rid ∈ pre, roleHasMapAt st permission rid = false) →
      canLoop st permission resource resourceId (pre ++ roleId :: post) = some true := by
  intro pre
  induction pre with
  | nil => intro _; simp [canLoop, hrole, hspec, hstar]
  | cons r rest ih =>
    intro h
    have hr : roleHasMapAt st permission r = false := h r (by simp)
    have hrest : ∀ rid ∈ rest, roleHasMapAt st permission rid = false :=
      fun rid hrid => h rid (by simp [hrid])
    cases hrole2 : jsGet st.roles r with
    | none => simp [canLoop, hrole2, ih hrest]
    | some role2 =>
      cases hperm2 : jsGet role2.perms permission with
      | none => simp [canLoop, hrole2, hperm2, ih hrest]
      | some spec2 =>
        cases spec2 with
        | star => simp [canLoop, hrole2, hperm2]
        | list l2 =>
          by_cases h1 : "*" ∈ l2
          · simp [canLoop, hrole2, hperm2, h1]
          · by_cases h2 : resource ∈ l2
            · simp [canLoop, hrole2, hperm2, h1, h2]
            · simp [canLoop, hrole2, hperm2, h1, h2, ih hrest]
        | map m =>
          exfalso
          rw [roleHasMapAt] at hr
          simp [hrole2, hperm2] at hr

/-- C10 counterexample: `u1` holds a role whose `view` spec is the list
`['*']`, yet `can` does not return true — it throws, because the role
iterated before it has a ResourceMap spec at the level. -/
theorem rbac_star_list_c10_counterexample :
    jsGet mapThenStarState.users "u1" = some { id := "u1", roles := ["m", "s"] }
    ∧ jsGet mapThenStarState.roles "s"
        = some { perms := [("view", PermSpec.list ["*"])] }
    ∧ rbacCan mapThenStarState "u1" "view" "anything" none = none := by
  refine ⟨by decide, by decide, by decide⟩

/-- C10 (amended): if a non-superuser user holds a role whose spec at the
requested level is a ResourceList containing `'*'`, and no role iterated
before it has a ResourceMap spec at that level, then `can` returns true for
every resource type and instance. -/
theorem rbac_star_list_c10_amended (st : RbacState)
    (userId permission resource : String) (resourceId : Option String)
    (u : RbacUser) (pre post : List String) (roleId : String) (role : Role)
    (l : List String)
    (hu : jsGet st.users userId = some u)
    (hsu : "superuser" ∉ u.roles) (hadm : "admin" ∉ u.roles)
    (hsplit : u.roles = pre ++ roleId :: post)
    (hpre : ∀ rid ∈ pre, roleHasMapAt st permission rid = false)
    (hrole : jsGet st.roles roleId = some role)
    (hspec : jsGet role.perms permission = some (PermSpec.list l))
    (hstar : "*" ∈ l) :
    rbacCan st userId permission resource resourceId = some true := by
  unfold rbacCan
  rw [hu]
  show (if (u.roles.contains "superuser" || u.roles.contains "admin") = true
        then some true
        else canLoop st permission resource resourceId u.roles) = some true
  rw [if_neg (by simp [hsu, hadm])]
  rw [hsplit]
  exact canLoop_star st permission resource resourceId roleId post role l
    hrole hspec hstar pre hpre

/-- C10 amended witness. -/
theorem rbac_star_list_c10_amended_witness :
    rbacCan starListState "u1" "edit" "whatever" (some "i9") = some true :=
  rbac_star_list_c10_amended starListState "u1" "edit" "whatever" (some "i9")
    { id := "u1", roles := ["r1"] } [] [] "r1" starListRole ["*"]
    (by decide) (by decide) (by decide) rfl (by simp) (by decide) (by decide)
    (by decide)

/-- Property assignment then lookup: the written key reads back the written
value, every other key is unchanged. -/
lemma jsGet_jsSet {α : Type} (m : List (String × α)) (k : String) (v : α)
    (k2 : String) :
    jsGet (jsSet m k v) k2 = if k2 = k then some v else jsGet m k2 := by
  induction m with
  | nil =>
    by_cases h : k2 = k
    · subst h; simp [jsSet, jsGet]
    · simp [jsSet, jsGet, h, beq_iff_eq, Ne.symm h]
  | cons p rest ih =>
    obtain ⟨k1, v1⟩ := p
    by_cases h1 : k1 = k
    · subst h1
      by_cases h2 : k1 = k2
      · subst h2; simp [jsSet, jsGet]
      · simp [jsSet, jsGet, beq_iff_eq, h2, Ne.symm h2]
    · by_cases h2 : k1 = k2
      · subst h2
        simp [jsSet, jsGet, beq_iff_eq, h1]
      · simp [jsSet, jsGet, beq_iff_eq, h1, h2, ih]

/-- The masking loop, characterised pointwise: provided the view check
returns on every listed field, the result exists and differs from the
accumulator exactly at the listed fields the user cannot view, which read
back the redaction sentinel. -/
lemma maskLoop_spec (st : RbacState) (userId : String) :
    ∀ (fields : List String) (acc : List (String × JsonV)),
      (∀ f ∈ fields, (rbacCan st userId "view" f none).isSome = true) →
      ∃ out, maskLoop st userId fields acc = some out ∧
        ∀ k, jsGet out k =
          if k ∈ fields ∧ rbacCan st userId "view" k none = some false
          then some (JsonV.s "***RESTRICTED***") else jsGet acc k := by
  intro fields
  induction fields with
  | nil =>
    intro acc _
    exact ⟨acc, rfl, fun k => by simp⟩
  | cons f rest ih =>
    intro acc hok
    have hf := hok f (by simp)
    have hrest : ∀ g ∈ rest, (rbacCan st userId "view" g none).isSome = true :=
      fun g hg => hok g (by simp [hg])
    cases hcan : rbacCan st userId "view" f none with
    | none => rw [hcan] at hf; simp at hf
    | some b =>
      cases b with
      | true =>
        obtain ⟨out, hout, hpt⟩ := ih acc hrest
        refine ⟨out, by simp [maskLoop, hcan, hout], ?_⟩
        intro k
        rw [hpt k]
        by_cases hkr : k ∈ rest ∧ rbacCan st userId "view" k none = some false
        · rw [if_pos hkr, if_pos ⟨by simp [hkr.1], hkr.2⟩]
        · rw [if_neg hkr, if_neg ?_]
          intro hc
          rcases List.mem_cons.mp hc.1 with hkf | hkrest
          · subst hkf
            rw [hcan] at hc
            exact Bool.noConfusion (Option.some.inj hc.2)
          · exact hkr ⟨hkrest, hc.2⟩
      | false =>
        obtain ⟨out, hout, hpt⟩ :=
          ih (jsSet acc f (JsonV.s "***RESTRICTED***")) hrest
        refine ⟨out, by simp [maskLoop, hcan, hout], ?_⟩
        intro k
        rw [hpt k, jsGet_jsSet]
        by_cases hkr : k ∈ rest ∧ rbacCan st userId "view" k none = some false
        · rw [if_pos hkr, if_pos ⟨by simp [hkr.1], hkr.2⟩]
        · rw [if_neg hkr]
          by_cases hkf : k = f
          · subst hkf
            rw [if_pos rfl, if_pos ⟨by simp, hcan⟩]
          · rw [if_neg hkf, if_neg ?_]
            intro hc
            rcases List.mem_cons.mp hc.1 with h1 | h2
            · exact hkf h1
            · exact hkr ⟨h2, hc.2⟩

/-- C9 counterexample: on a state where the view check throws (the
ResourceMap bug of C5), `maskFields` does not return a record at all — the
`TypeError` from `can` propagates out of the masking loop. -/
theorem rbac_mask_c9_counterexample :
    maskFields mapState "u1" [("salary", JsonV.s "42")] ["salary"] = none := by
  rfl

/-- C9 (amended): provided the view check returns (does not throw) on every
listed field, `maskFields` returns a record in which each listed field the
user cannot view reads back the redaction sentinel, each listed field the
user may view keeps its value, and every non-listed field is unchanged. -/
theorem rbac_mask_fields_c9_amended (st : RbacState) (userId : String)
    (data : List (String × JsonV)) (fields : List String)
    (hok : ∀ f ∈ fields, (rbacCan st userId "view" f none).isSome = true) :
    ∃ out, maskFields st userId data fields = some out ∧
      ∀ k, jsGet out k =
        if k ∈ fields ∧ rbacCan st userId "view" k none = some false
        then some (JsonV.s "***RESTRICTED***") else jsGet data k :=
  maskLoop_spec st userId fields data hok

/-- C9 amended witness: a concrete state where the view checks return. -/
theorem rbac_mask_fields_c9_amended_witness :
    (maskFields starListState "u1" [("budget", JsonV.s "5")] ["budget"]).isSome
      = true := by
  obtain ⟨out, hout, _⟩ := rbac_mask_fields_c9_amended starListState "u1"
    [("budget", JsonV.s "5")] ["budget"] (by decide)
  rw [hout]
  rfl

/-- Frame lemma: `updateFirst` rewrites exactly the first element satisfying the
predicate and leaves the rest of the list untouched. -/
lemma updateFirst_eq {α : Type} (p : α → Bool) (f : α → α) :
    ∀ (st : List α) (i : Nat) (a : α), st[i]? = some a → p a = true →
      (∀ j b, j < i → st[j]? = some b → p b = false) →
      updateFirst p f st = st.take i ++ f a :: st.drop (i + 1) := by
  intro st
  induction st with
  | nil => intro i a h; simp at h
  | cons x rest ih =>
    intro i a ha hpa hmin
    cases i with
    | zero =>
      rw [List.getElem?_cons_zero] at ha
      obtain rfl : x = a := Option.some.inj ha
      simp [updateFirst, hpa]
    | succ k =>
      have hx : p x = false := hmin 0 x (Nat.succ_pos k) (by simp)
      rw [List.getElem?_cons_succ] at ha
      have hmin2 : ∀ j b, j < k → rest[j]? = some b → p b = false := by
        intro j b hj hb
        exact hmin (j + 1) b (Nat.succ_lt_succ hj) (by simpa)
      simp [updateFirst, hx, ih k a ha hpa hmin2]

/-- A list contains no match iff `any` of the predicate is false, phrased
for the id test used by the engine. -/
lemma approval_no_match (st : List Approval) (rid : String) :
    (st.any (fun a => a.id == rid)) = false ↔ ∀ a ∈ st, ¬(a.id = rid) := by
  simp [List.any_eq_false]

/-- C8: `reject` throws `ApprovalNotFound` exactly when no stored request
has the id (the state is unchanged since the throw precedes any mutation);
otherwise it rewrites only the first matching request, unconditionally
setting status `'rejected'` and recording the rejecting user and reason —
regardless of the request's current status or approval log. -/
theorem approval_reject_c8 (st : List Approval) (rid uid reason : String) :
    (rejectOp st rid uid reason = Except.error "Approval not found"
      ↔ ∀ a ∈ st, ¬(a.id = rid))
    ∧ (∀ i a, st[i]? = some a → a.id = rid →
        (∀ j b, j < i → st[j]? = some b → ¬(b.id = rid)) →
        rejectOp st rid uid reason = Except.ok (st.take i ++
          { a with status := "rejected", rejectedBy := some uid,
                   rejectionReason := some reason } :: st.drop (i + 1))) := by
  constructor
  · constructor
    · intro herr
      rw [rejectOp] at herr
      by_cases hany : (st.any (fun a => a.id == rid)) = true
      · rw [if_pos hany] at herr; exact absurd herr (by simp)
      · exact (approval_no_match st rid).mp (Bool.not_eq_true _ ▸ hany)
    · intro hnone
      have hany : (st.any (fun a => a.id == rid)) = false :=
        (approval_no_match st rid).mpr hnone
      rw [rejectOp, if_neg (by simp [hany])]
  · intro i a ha hid hmin
    have hany : (st.any (fun a => a.id == rid)) = true := by
      simp only [List.any_eq_true]
      exact ⟨a, List.getElem?_mem ha, by simp [hid]⟩
    rw [rejectOp, if_pos hany]
    rw [updateFirst_eq (fun a => a.id == rid) _ st i a ha (by simp [hid])
      (fun j b hj hb => by simpa using hmin j b hj hb)]

/-- C8 witness: rejecting an already-`approved` request with a non-required
user still flips it to `rejected` and records the metadata. -/
theorem approval_reject_c8_witness :
    rejectOp [{ id := "R1", requiredApprovers := ["A"], status := "approved",
                approvals := [], createdAt := "t0", rejectedBy := none,
                rejectionReason := none }] "R1" "X" "why"
      = Except.ok [{ id := "R1", requiredApprovers := ["A"], status := "rejected",
                     approvals := [], createdAt := "t0", rejectedBy := some "X",
                     rejectionReason := some "why" }] := by
  have h := (approval_reject_c8
    [{ id := "R1", requiredApprovers := ["A"], status := "approved",
       approvals := [], createdAt := "t0", rejectedBy := none,
       rejectionReason := none }] "R1" "X" "why").2 0
    { id := "R1", requiredApprovers := ["A"], status := "approved",
      approvals := [], createdAt := "t0", rejectedBy := none,
      rejectionReason := none }
    rfl rfl (fun j b hj _ => absurd hj (Nat.not_lt_zero j))
  exact h

/-- The state reached by `n` repeated approvals by the same user `A` on a
fresh request requiring `A` and `B`: the log grows, the status stays
`pending`. -/
lemma approveTimes_same_user (A B rid ts0 c1 ts1 : String) (hAB : A ≠ B) :
    ∀ n, approveTimes rid A c1 ts1 n (requestApprovalOp [] rid ts0 [A, B])
      = [{ id := rid, requiredApprovers := [A, B], status := "pending",
           approvals := List.replicate n
             { userId := A, action := "approved", comments := c1, timestamp := ts1 },
           createdAt := ts0, rejectedBy := none, rejectionReason := none }] := by
  intro n
  induction n with
  | zero => rfl
  | succ m ih =>
    rw [approveTimes, ih, approveStep, approveOp, if_pos (by simp)]
    have hfull : isFullyApproved
        { id := rid, requiredApprovers := [A, B], status := "pending",
          approvals := List.replicate m
              { userId := A, action := "approved", comments := c1, timestamp := ts1 }
            ++ [{ userId := A, action := "approved", comments := c1, timestamp := ts1 }],
          createdAt := ts0, rejectedBy := none, rejectionReason := none } = false := by
      simp [isFullyApproved, List.mem_replicate]
      exact ⟨fun _ h => hAB h.symm, fun h => hAB h.symm⟩
    simp only [updateFirst, beq_self_eq_true, if_true]
    simp [hfull, List.replicate_succ']

/-- C3: with required approvers `[A, B]` (`A ≠ B`), one approval by `A`
leaves the request `pending`; a further approval by `B` makes it
`approved`; `n` repeated approvals by `A` alone are all logged (the log has
length `n`) but never make it `approved` — quorum is set membership among
the log's approver identifiers, not a count. -/
theorem approval_quorum_c3 (A B rid ts0 c1 ts1 c2 ts2 : String) (hAB : A ≠ B) :
    statusOf (approveStep rid A c1 ts1 (requestApprovalOp [] rid ts0 [A, B])) rid
      = some "pending"
    ∧ statusOf (approveStep rid B c2 ts2 (approveStep rid A c1 ts1
        (requestApprovalOp [] rid ts0 [A, B]))) rid = some "approved"
    ∧ (∀ n, statusOf (approveTimes rid A c1 ts1 n
        (requestApprovalOp [] rid ts0 [A, B])) rid = some "pending")
    ∧ (∀ n, (approveTimes rid A c1 ts1 n
        (requestApprovalOp [] rid ts0 [A, B])).map (fun a => a.approvals.length)
        = [n]) := by
  have hstep1 : approveStep rid A c1 ts1 (requestApprovalOp [] rid ts0 [A, B])
      = approveTimes rid A c1 ts1 1 (requestApprovalOp [] rid ts0 [A, B]) := rfl
  have h1 := approveTimes_same_user A B rid ts0 c1 ts1 hAB 1
  refine ⟨?_, ?_, ?_, ?_⟩
  · rw [hstep1, h1]
    simp [statusOf]
  · rw [hstep1, h1, approveStep, approveOp, if_pos (by simp)]
    have hfull : isFullyApproved
        { id := rid, requiredApprovers := [A, B], status := "pending",
          approvals := List.replicate 1
              { userId := A, action := "approved", comments := c1, timestamp := ts1 }
            ++ [{ userId := B, action := "approved", comments := c2, timestamp := ts2 }],
          createdAt := ts0, rejectedBy := none, rejectionReason := none } = true := by
      simp [isFullyApproved]
    simp only [updateFirst, beq_self_eq_true]
    rw [if_pos (by simp)]
    simp only [hfull, if_true]
    simp [statusOf]
  · intro n
    rw [approveTimes_same_user A B rid ts0 c1 ts1 hAB n]
    simp [statusOf]
  · intro n
    rw [approveTimes_same_user A B rid ts0 c1 ts1 hAB n]
    simp

/-- C3 witness at concrete approvers. -/
theorem approval_quorum_c3_witness :
    statusOf (approveTimes "R1" "A" "" "t1" 2
        (requestApprovalOp [] "R1" "t0" ["A", "B"])) "R1" = some "pending"
    ∧ statusOf (approveStep "R1" "B" "" "t2" (approveStep "R1" "A" "" "t1"
        (requestApprovalOp [] "R1" "t0" ["A", "B"]))) "R1" = some "approved" := by
  have h := approval_quorum_c3 "A" "B" "R1" "t0" "" "t1" "" "t2" (by decide)
  exact ⟨h.2.2.1 2, h.2.1⟩

/-- C4 counterexample: a request requiring only `A` is rejected, then `A`
approves — the approve call has no status guard, so the `rejected` request
flips to `approved` once the quorum test passes. -/
theorem approval_terminal_c4_counterexample :
    rejectOp (requestApprovalOp [] "R2" "t0" ["A"]) "R2" "B" "no" = Except.ok
      [{ id := "R2", requiredApprovers := ["A"], status := "rejected",
         approvals := [], createdAt := "t0", rejectedBy := some "B",
         rejectionReason := some "no" }]
    ∧ approveOp
        [{ id := "R2", requiredApprovers := ["A"], status := "rejected",
           approvals := [], createdAt := "t0", rejectedBy := some "B",
           rejectionReason := some "no" }] "R2" "A" "" "t1" = Except.ok
      [{ id := "R2", requiredApprovers := ["A"], status := "approved",
         approvals := [{ userId := "A", action := "approved", comments := "",
                         timestamp := "t1" }],
         createdAt := "t0", rejectedBy := some "B",
         rejectionReason := some "no" }] := by
  constructor <;> rfl

/-- C4 (amended): `approve` throws `ApprovalNotFound` exactly when no stored
request matches; otherwise it appends the approval action to the first
matching request's log and sets its status to `approved` precisely when the
required-approver set is contained in the log's approver identifiers after
the append, leaving the status unchanged otherwise — regardless of the
previous status.  Hence an `approved` request stays `approved`, but a
`rejected` request whose quorum the call completes becomes `approved`. -/
theorem approval_approve_c4_amended (st : List Approval) (rid uid c ts : String) :
    (approveOp st rid uid c ts = Except.error "Approval not found"
      ↔ ∀ a ∈ st, ¬(a.id = rid))
    ∧ (∀ i a, st[i]? = some a → a.id = rid →
        (∀ j b, j < i → st[j]? = some b → ¬(b.id = rid)) →
        approveOp st rid uid c ts = Except.ok (st.take i ++
          { a with
              approvals := a.approvals ++
                [{ userId := uid, action := "approved", comments := c,
                   timestamp := ts }],
              status :=
                if isFullyApproved { a with approvals := a.approvals ++
                    [{ userId := uid, action := "approved", comments := c,
                       timestamp := ts }] }
                then "approved" else a.status } :: st.drop (i + 1))) := by
  constructor
  · constructor
    · intro herr
      rw [approveOp] at herr
      by_cases hany : (st.any (fun a => a.id == rid)) = true
      · rw [if_pos hany] at herr; exact absurd herr (by simp)
      · exact (approval_no_match st rid).mp (Bool.not_eq_true _ ▸ hany)
    · intro hnone
      have hany : (st.any (fun a => a.id == rid)) = false :=
        (approval_no_match st rid).mpr hnone
      rw [approveOp, if_neg (by simp [hany])]
  · intro i a ha hid hmin
    have hany : (st.any (fun a => a.id == rid)) = true := by
      simp only [List.any_eq_true]
      exact ⟨a, List.getElem?_mem ha, by simp [hid]⟩
    rw [approveOp, if_pos hany]
    rw [updateFirst_eq _ _ st i a ha (by simp [hid])
      (fun j b hj hb => by simpa using hmin j b hj hb)]
    by_cases hfull : isFullyApproved { a with approvals := a.approvals ++
        [{ userId := uid, action := "approved", comments := c,
           timestamp := ts }] } = true
    · simp [hfull]
    · simp only [Bool.not_eq_true] at hfull
      simp [hfull]

/-- C4 amended witness: approving a pending request short of quorum appends
and leaves it pending. -/
theorem approval_approve_c4_amended_witness :
    approveOp [{ id := "R3", requiredApprovers := ["A", "B"], status := "pending",
                 approvals := [], createdAt := "t0", rejectedBy := none,
                 rejectionReason := none }] "R3" "A" "" "t1"
      = Except.ok [{ id := "R3", requiredApprovers := ["A", "B"],
                     status := "pending",
                     approvals := [{ userId := "A", action := "approved",
                                     comments := "", timestamp := "t1" }],
                     createdAt := "t0", rejectedBy := none,
                     rejectionReason := none }] := by
  have h := (approval_approve_c4_amended
    [{ id := "R3", requiredApprovers := ["A", "B"], status := "pending",
       approvals := [], createdAt := "t0", rejectedBy := none,
       rejectionReason := none }] "R3" "A" "" "t1").2 0
    { id := "R3", requiredApprovers := ["A", "B"], status := "pending",
      approvals := [], createdAt := "t0", rejectedBy := none,
      rejectionReason := none }
    rfl rfl (fun j b hj _ => absurd hj (Nat.not_lt_zero j))
  rw [h]
  rfl

/-- The stored `hash` field never enters the content hash. -/
lemma calculateHash_set_hash (e : LedgerEntry) (h : Option String) :
    calculateHash { e with hash := h } = calculateHash e := rfl

lemma toDigitsCore_ne_nil (b : Nat) :
    ∀ (fuel n : Nat) (ds : List Char), fuel ≠ 0 ∨ ds ≠ [] →
      Nat.toDigitsCore b fuel n ds ≠ [] := by
  intro fuel
  induction fuel with
  | zero =>
    intro n ds h
    rcases h with h | h
    · exact absurd rfl h
    · simpa [Nat.toDigitsCore] using h
  | succ f ih =>
    intro n ds _
    simp only [Nat.toDigitsCore]
    by_cases hnb : n / b = 0
    · simp [hnb]
    · rw [if_neg hnb]
      exact ih (n / b) _ (Or.inr (by simp))

lemma jsToHex_ne_empty (i : Int) : jsToHex i ≠ "" := by
  rw [jsToHex]
  by_cases h : i < 0
  · rw [if_pos h]
    intro hc
    have hd := congrArg String.data hc
    rw [String.data_append] at hd
    simp at hd
  · rw [if_neg h]
    intro hc
    have hd := congrArg String.data hc
    have hnil : Nat.toDigits 16 i.toNat = [] := by simpa using hd
    exact toDigitsCore_ne_nil 16 (i.toNat + 1) i.toNat []
      (Or.inl (by omega)) (by simpa [Nat.toDigits] using hnil)

lemma calculateHash_ne_empty (e : LedgerEntry) : calculateHash e ≠ "" :=
  jsToHex_ne_empty _

/-- With hashing enabled, `record` appends the assembled entry carrying its
own content hash. -/
lemma recordOp_entries (L : Ledger) (hu : L.useHashing = true)
    (idv tsv : String) (inp : RecordInput) :
    (recordOp L idv tsv inp).entries = L.entries ++
      [{ mkEntry L.entries idv tsv inp with
         hash := some (calculateHash (mkEntry L.entries idv tsv inp)) }] := by
  simp [recordOp, hu]

lemma recordOp_useHashing (L : Ledger) (idv tsv : String) (inp : RecordInput) :
    (recordOp L idv tsv inp).useHashing = L.useHashing := rfl

lemma chainInv_nil : ChainInv [] := ⟨by simp, by simp, by simp⟩

/-- Appending via `record` preserves the chain invariant. -/
lemma chainInv_record (L : Ledger) (idv tsv : String) (inp : RecordInput)
    (hu : L.useHashing = true) (inv : ChainInv L.entries) :
    ChainInv (recordOp L idv tsv inp).entries := by
  obtain ⟨hgen, hlink, hhash⟩ := inv
  rw [recordOp_entries L hu idv tsv inp]
  refine ⟨?_, ?_, ?_⟩
  · intro x hx
    cases hes : L.entries with
    | nil =>
      rw [hes] at hx
      simp at hx
      subst hx
      rfl
    | cons y ys =>
      rw [hes] at hx
      simp at hx
      exact hgen x (by rw [hes, List.head?_cons, hx])
  · intro i x y hxi hyi
    by_cases hi : i + 1 < L.entries.length
    · rw [List.getElem?_append_left (by omega)] at hxi
      rw [List.getElem?_append_left hi] at hyi
      exact hlink i x y hxi hyi
    · by_cases hi2 : i + 1 = L.entries.length
      · rw [List.getElem?_append_left (by omega)] at hxi
        have hy : y = { mkEntry L.entries idv tsv inp with
            hash := some (calculateHash (mkEntry L.entries idv tsv inp)) } := by
          have hcat := List.getElem?_concat_length L.entries
            { mkEntry L.entries idv tsv inp with
              hash := some (calculateHash (mkEntry L.entries idv tsv inp)) }
          rw [← hi2] at hcat
          rw [hyi] at hcat
          exact Option.some.inj hcat
        have hlast : L.entries.getLast? = some x := by
          rw [List.getLast?_eq_getElem?, show L.entries.length - 1 = i by omega]
          exact hxi
        have hxh : x.hash = some (calculateHash x) :=
          hhash x (List.getElem?_mem hxi)
        have hgl : getLastHash L.entries = calculateHash x := by
          simp only [getLastHash, hlast, hxh]
          rw [if_neg (calculateHash_ne_empty x)]
        rw [hy]
        show x.hash = some (getLastHash L.entries)
        rw [hgl]
        exact hxh
      · exfalso
        rw [List.getElem?_append_right (by omega)] at hyi
        rw [List.getElem?_eq_none (by simp; omega)] at hyi
        cases hyi
  · intro x hx
    rcases List.mem_append.mp hx with hmem | hmem
    · exact hhash x hmem
    · simp at hmem
      rw [hmem]
      rfl

/-- The chain invariant holds for every ledger produced by a sequence of
`record()` calls on an initially empty hashing ledger. -/
lemma chainInv_runRecords (steps : List RecordStep) :
    ChainInv (runRecords steps).entries ∧ (runRecords steps).useHashing = true := by
  suffices h : ∀ (ss : List RecordStep) (L : Ledger), L.useHashing = true →
      ChainInv L.entries →
      ChainInv ((ss.foldl (fun L s => recordOp L s.idv s.tsv s.inp) L)).entries
      ∧ (ss.foldl (fun L s => recordOp L s.idv s.tsv s.inp) L).useHashing = true by
    exact h steps emptyLedger rfl chainInv_nil
  intro ss
  induction ss with
  | nil => intro L hu inv; exact ⟨inv, hu⟩
  | cons s rest ih =>
    intro L hu inv
    rw [List.foldl_cons]
    exact ih (recordOp L s.idv s.tsv s.inp)
      (by rw [recordOp_useHashing, hu])
      (chainInv_record L s.idv s.tsv s.inp hu inv)

/-- Shifting `entryOkAt` across the verified head. -/
lemma entryOkAt_cons (prev : Option LedgerEntry) (e : LedgerEntry)
    (rest : List LedgerEntry) (j : Nat) :
    entryOkAt prev (e :: rest) (j + 1) = entryOkAt (some e) rest j := by
  cases j with
  | zero =>
    simp only [entryOkAt, List.getElem?_cons_succ, List.getElem?_cons_zero]
  | succ k =>
    simp only [entryOkAt, List.getElem?_cons_succ]

/-- One step of the verify loop with no previous entry. -/
lemma verifyAux_cons_none (i : Nat) (e : LedgerEntry) (rest : List LedgerEntry) :
    verifyAux none i (e :: rest)
      = if e.hash ≠ some (calculateHash e) then
          { valid := false, message := invalidHashMsg i e, entry := some e }
        else verifyAux (some e) (i + 1) rest := rfl

/-- One step of the verify loop linking to the previous entry. -/
lemma verifyAux_cons_some (p : LedgerEntry) (i : Nat) (e : LedgerEntry)
    (rest : List LedgerEntry) :
    verifyAux (some p) i (e :: rest)
      = if e.hash ≠ some (calculateHash e) then
          { valid := false, message := invalidHashMsg i e, entry := some e }
        else if some e.previousHash ≠ p.hash then
          { valid := false, message := brokenChainMsg i e, entry := some e }
        else verifyAux (some e) (i + 1) rest := rfl

/-- The verify loop accepts exactly when every local index passes its
per-entry check. -/
lemma verifyAux_valid_iff :
    ∀ (es : List LedgerEntry) (prev : Option LedgerEntry) (i : Nat),
      (verifyAux prev i es).valid = true ↔ ∀ j, entryOkAt prev es j = true := by
  intro es
  induction es with
  | nil =>
    intro prev i
    exact ⟨fun _ j => rfl, fun _ => rfl⟩
  | cons e rest ih =>
    intro prev i
    by_cases hh : e.hash = some (calculateHash e)
    · cases prev with
      | none =>
        rw [verifyAux_cons_none, if_neg (not_not_intro hh), ih (some e) (i + 1)]
        constructor
        · intro h j
          cases j with
          | zero => simp [entryOkAt, hh]
          | succ k => rw [entryOkAt_cons]; exact h k
        · intro h j
          have hj := h (j + 1)
          rwa [entryOkAt_cons] at hj
      | some p =>
        rw [verifyAux_cons_some, if_neg (not_not_intro hh)]
        by_cases hl : p.hash = some e.previousHash
        · rw [if_neg (not_not_intro hl.symm), ih (some e) (i + 1)]
          constructor
          · intro h j
            cases j with
            | zero => simp [entryOkAt, hh, hl]
            | succ k => rw [entryOkAt_cons]; exact h k
          · intro h j
            have hj := h (j + 1)
            rwa [entryOkAt_cons] at hj
        · rw [if_pos (fun hc : some e.previousHash = p.hash => hl hc.symm)]
          constructor
          · intro hc; exact absurd hc (by simp)
          · intro h
            have h0 := h 0
            simp [entryOkAt, hh] at h0
            exact absurd h0 hl
    · have hfail : ∃ r, verifyAux prev i (e :: rest) = r ∧ r.valid = false := by
        cases prev with
        | none =>
          exact ⟨_, verifyAux_cons_none i e rest |>.trans (if_pos hh), rfl⟩
        | some p =>
          exact ⟨_, verifyAux_cons_some p i e rest |>.trans (if_pos hh), rfl⟩
      obtain ⟨r, hr, hrv⟩ := hfail
      rw [hr]
      constructor
      · intro hc; rw [hrv] at hc; cases hc
      · intro h
        have h0 := h 0
        simp [entryOkAt, hh] at h0

/-- When local index `j` is the first failing check, the loop stops there
with the matching message and offending entry. -/
lemma verifyAux_first_fail :
    ∀ (es : List LedgerEntry) (prev : Option LedgerEntry) (i j : Nat)
      (x : LedgerEntry),
      es[j]? = some x → entryOkAt prev es j = false →
      (∀ k, k < j → entryOkAt prev es k = true) →
      verifyAux prev i es
        = { valid := false, message := entryFailMsg (i + j) x, entry := some x } := by
  intro es
  induction es with
  | nil => intro prev i j x hx; simp at hx
  | cons e rest ih =>
    intro prev i j x hx hbad hmin
    cases j with
    | zero =>
      rw [List.getElem?_cons_zero] at hx
      obtain rfl : e = x := Option.some.inj hx
      by_cases hh : e.hash = some (calculateHash e)
      · cases prev with
        | none =>
          exfalso
          have : entryOkAt none (e :: rest) 0 = true := by simp [entryOkAt, hh]
          rw [this] at hbad
          cases hbad
        | some p =>
          by_cases hl : p.hash = some e.previousHash
          · exfalso
            have : entryOkAt (some p) (e :: rest) 0 = true := by
              simp [entryOkAt, hh, hl]
            rw [this] at hbad
            cases hbad
          · rw [verifyAux_cons_some, if_neg (not_not_intro hh),
              if_pos (fun hc : some e.previousHash = p.hash => hl hc.symm)]
            rw [entryFailMsg, if_pos hh]
            simp
      · have hmsg : entryFailMsg (i + 0) e = invalidHashMsg i e := by
          rw [entryFailMsg, if_neg hh]
          simp
        rw [hmsg]
        cases prev with
        | none => rw [verifyAux_cons_none, if_pos hh]
        | some p => rw [verifyAux_cons_some, if_pos hh]
    | succ k =>
      have h0 : entryOkAt prev (e :: rest) 0 = true := hmin 0 (Nat.succ_pos k)
      have hh : e.hash = some (calculateHash e) := by
        by_contra hc
        simp [entryOkAt, hc] at h0
      have hx2 : rest[k]? = some x := by simpa using hx
      have hbad2 : entryOkAt (some e) rest k = false := by
        rwa [entryOkAt_cons] at hbad
      have hmin2 : ∀ m, m < k → entryOkAt (some e) rest m = true := by
        intro m hm
        have := hmin (m + 1) (Nat.succ_lt_succ hm)
        rwa [entryOkAt_cons] at this
      have hrec := ih (some e) (i + 1) k x hx2 hbad2 hmin2
      have hidx : i + 1 + k = i + (k + 1) := by omega
      rw [hidx] at hrec
      cases prev with
      | none =>
        rw [verifyAux_cons_none, if_neg (not_not_intro hh)]
        exact hrec
      | some p =>
        have hl : p.hash = some e.previousHash := by
          by_contra hc
          simp [entryOkAt, hh, hc] at h0
        rw [verifyAux_cons_some, if_neg (not_not_intro hh),
          if_neg (not_not_intro hl.symm)]
        exact hrec

/-- C1: for every sequence of `record()` calls on an initially empty ledger
with hashing enabled, the entry list satisfies the chain invariant — the
first entry's `previousHash` is the genesis sentinel `'0'`, each later
entry's `previousHash` equals its predecessor's stored `hash`, and every
entry's `hash` is the content hash of its canonical fields — and `verify()`
reports the ledger as valid. -/
theorem ledger_chain_c1 (steps : List RecordStep) :
    (∀ e, (runRecords steps).entries.head? = some e → e.previousHash = "0")
    ∧ (∀ i e e2, (runRecords steps).entries[i]? = some e →
        (runRecords steps).entries[i + 1]? = some e2 →
        e.hash = some e2.previousHash)
    ∧ (∀ e ∈ (runRecords steps).entries, e.hash = some (calculateHash e))
    ∧ (ledgerVerify (runRecords steps)).valid = true := by
  obtain ⟨⟨hgen, hlink, hhash⟩, hu⟩ := chainInv_runRecords steps
  refine ⟨hgen, hlink, hhash, ?_⟩
  rw [ledgerVerify, if_neg (by simp [hu])]
  rw [verifyAux_valid_iff]
  intro j
  cases hj : (runRecords steps).entries[j]? with
  | none => simp [entryOkAt, hj]
  | some x =>
    have hxh := hhash x (List.getElem?_mem hj)
    cases j with
    | zero => simp [entryOkAt, hj, hxh]
    | succ k =>
      cases hk : (runRecords steps).entries[k]? with
      | none => simp [entryOkAt, hj, hk, hxh]
      | some p =>
        have hlk := hlink k p x hk hj
        simp [entryOkAt, hj, hk, hxh, hlk]

/-- C1 witness: two concrete `record()` calls verify as valid. -/
theorem ledger_chain_c1_witness :
    (ledgerVerify (runRecords [c2Step,
      { idv := "E2", tsv := "T2",
        inp := { action := some "B", projectId := none, userId := none,
                 details := none } }])).valid = true :=
  (ledger_chain_c1 _).2.2.2

/-- C2 counterexample: the single entry recorded by `record()` carries
`userId = "Aa"`; mutating that stored field to `"BB"` (hash untouched)
leaves the rolling content hash unchanged — `'A'*31 + 'a' = 'B'*31 + 'B'` —
so `verify()` still reports the tampered ledger as fully valid instead of
reporting the tampered index. -/
theorem ledger_tamper_c2_counterexample :
    (runRecords [c2Step]).entries = [c2Entry]
    ∧ c2Tampered = { c2Entry with userId := some "BB" }
    ∧ c2Entry.userId = some "Aa"
    ∧ c2Tampered.hash = c2Entry.hash
    ∧ (ledgerVerify { entries := [c2Tampered], useHashing := true }).valid = true
    ∧ (ledgerVerify { entries := [c2Tampered], useHashing := true }).message
        = "Ledger integrity verified" := by
  refine ⟨rfl, rfl, rfl, rfl, by decide, by decide⟩

/-- C2 (amended): with hashing enabled, `verify()` accepts exactly when
every entry passes its per-index check (stored hash equals the recomputed
content hash, and for `i > 0` the `previousHash` equals the previous
entry's stored hash); and whenever index `j` is the first failing check,
`verify()` reports exactly index `j`, naming the offending entry, with the
hash-mismatch message taking precedence over the broken-link message.
Tampering is therefore detected if and only if it breaks one of these
checks; a mutation that preserves the entry's content hash (a collision of
the weak rolling hash, see the counterexample) is not reported. -/
theorem ledger_verify_c2_amended (L : Ledger) (hu : L.useHashing = true) :
    ((ledgerVerify L).valid = true ↔ ∀ j, entryOkAt none L.entries j = true)
    ∧ (∀ j x, L.entries[j]? = some x → entryOkAt none L.entries j = false →
        (∀ k, k < j → entryOkAt none L.entries k = true) →
        ledgerVerify L = { valid := false, message := entryFailMsg j x,
                           entry := some x }) := by
  constructor
  · rw [ledgerVerify, if_neg (by simp [hu])]
    exact verifyAux_valid_iff L.entries none 0
  · intro j x hx hbad hmin
    rw [ledgerVerify, if_neg (by simp [hu])]
    have h := verifyAux_first_fail L.entries none 0 j x hx hbad hmin
    rw [show 0 + j = j by omega] at h
    exact h

/-- C2 amended witness: an entry whose stored hash was overwritten is
reported at index 0 with the invalid-hash message. -/
theorem ledger_verify_c2_amended_witness :
    (ledgerVerify { entries := [{ c2Base with hash := some "nope" }],
                    useHashing := true }).valid = false
    ∧ (ledgerVerify { entries := [{ c2Base with hash := some "nope" }],
                      useHashing := true }).message
        = "Entry 0 (E1) has invalid hash" := by
  have h := (ledger_verify_c2_amended
    { entries := [{ c2Base with hash := some "nope" }], useHashing := true }
    rfl).2 0 { c2Base with hash := some "nope" } rfl (by decide)
    (fun k hk => absurd hk (Nat.not_lt_zero k))
  rw [h]
  exact ⟨rfl, by decide⟩
